import Mathlib

set_option maxHeartbeats 1000000

/-
Shallow embedding of the genetic-algorithm engine in
src/lab1/ga/genetic_algorithm.go.

Modelling choices:
* Go `float64` values (fitness, probabilities, random draws) are modelled as
  exact rationals; comparisons are the only operations the engine performs on
  them.
* A Go `[]byte` slice header is modelled as an index (`Individual.genes`) into
  a gene store `St.store` holding the backing arrays, so that struct copies
  share the backing array and in-place mutation through one copy is visible
  through the other, exactly as in Go.
* `rand.Rand` (the generator owned by the engine) is modelled as an oracle
  `Rng`: the k-th random call of the run reads position k.  `rand.Float64`
  returns a value in [0,1) (captured by `Rng.Valid` where a claim needs it);
  `rand.Intn n` returns a value in [0,n) for n ≥ 1 (captured by reducing the
  oracle draw mod n) and panics for n = 0 (modelled as `none`).
* Go `int` is modelled as unbounded `Int` for the engine's control quantities
  (population size, generation counts, …), which stay far from overflow; the
  decoding utilities `BytesToInt`/`BytesToFloat`, whose `1 << i` arithmetic
  genuinely wraps at 64 bits for long genotypes, are modelled with
  two's-complement `int64` semantics (a 64-bit word plus its signed reading).
* A Go runtime panic (index out of range on an empty population,
  `rand.Intn(0)`, `make` with negative length) is modelled by returning
  `none`.
-/

namespace GASpec

/-- One candidate solution, mirroring Go `type Individual struct {Genes []byte;
Fitness float64}`: `genes` is the slice header (an index into the gene store)
and `fitness` the scalar fitness. -/
structure Individual where
  genes : Nat
  fitness : ℚ
deriving DecidableEq, Repr

/-- Mirror of the Go `Config` struct (field for field). -/
structure Config where
  populationSize : Int
  maxGenerations : Int
  crossoverProb : ℚ
  mutationProb : ℚ
  crossoverType : String
  elitismCount : Int
  bitsPerGene : Int
  fitnessFunc : List Nat → ℚ
  seed : Int

/-- Oracle model of the engine-owned `*rand.Rand`: `floatAt k` is the value the
k-th random call of the run would return if it is `Float64`, `intnAt k n` the
raw draw if it is `Intn n`. -/
structure Rng where
  floatAt : Nat → ℚ
  intnAt : Nat → Nat → Nat

/-- The guarantee Go's `rand.Float64` gives: every draw lies in [0,1). -/
def Rng.Valid (r : Rng) : Prop := ∀ k, 0 ≤ r.floatAt k ∧ r.floatAt k < 1

/-- Mutable run state: the gene store (backing arrays of every allocated gene
slice, in allocation order) and the number of random draws consumed so far. -/
structure St where
  store : List (List Nat)
  pos : Nat
deriving DecidableEq, Repr

/-- Read the backing array of a gene slice (a Go slice dereference; pointers
produced by the engine are always in range). -/
def deref (s : St) (p : Nat) : List Nat := s.store.getD p []

/-- Allocate a fresh backing array (Go `make([]byte, …)` plus the writes that
fill it) and return its slice header. -/
def alloc (s : St) (g : List Nat) : Nat × St := (s.store.length, ⟨s.store ++ [g], s.pos⟩)

/-- Go lines 44-51: draw `n` gene bits in index order, each 1 when
`rng.Float64() < 0.5`.  Returns the bits and the advanced draw position. -/
def randBits (r : Rng) : Nat → Nat → List Nat × Nat
  | 0, pos => ([], pos)
  | n + 1, pos =>
      let b : Nat := if r.floatAt pos < 1/2 then 1 else 0
      let rest := randBits r n (pos + 1)
      (b :: rest.1, rest.2)

/-- Go lines 43-56: build `n` individuals, each with a freshly allocated random
genotype of `BitsPerGene` bits and its fitness computed by `FitnessFunc`. -/
def initPop (cfg : Config) (r : Rng) : Nat → St → List Individual × St
  | 0, s => ([], s)
  | n + 1, s =>
      let gb := randBits r cfg.bitsPerGene.toNat s.pos
      let a := alloc ⟨s.store, gb.2⟩ gb.1
      let ind : Individual := ⟨a.1, cfg.fitnessFunc gb.1⟩
      let rest := initPop cfg r n a.2
      (ind :: rest.1, rest.2)

/-- Go `Initialize` (lines 41-57).  `make([]Individual, n)` and
`make([]byte, n)` panic when `n` is negative, hence the two `none` cases;
`PopulationSize = 0` builds an empty population without panicking. -/
def initPopulation (cfg : Config) (r : Rng) (s : St) : Option (List Individual × St) :=
  if cfg.populationSize < 0 then none
  else if 0 < cfg.populationSize ∧ cfg.bitsPerGene < 0 then none
  else some (initPop cfg r cfg.populationSize.toNat s)

/-- The ranking relation of Go's `sort.Slice(…, Fitness[i] > Fitness[j])`:
`a` may precede `b` when `b`'s fitness does not exceed `a`'s. -/
def fitnessDesc (a b : Individual) : Prop := b.fitness ≤ a.fitness

instance : DecidableRel fitnessDesc := fun a b => inferInstanceAs (Decidable (b.fitness ≤ a.fitness))

instance : IsTotal Individual fitnessDesc := ⟨fun a b => le_total b.fitness a.fitness⟩

instance : IsTrans Individual fitnessDesc := ⟨fun _ _ _ hab hbc => le_trans hbc hab⟩

/-- Go's in-place `sort.Slice` by strictly-descending fitness.  `sort.Slice` is
not stable and leaves the order of equal-fitness individuals unspecified; the
embedding picks one admissible descending order. -/
def sortPop (pop : List Individual) : List Individual := List.insertionSort fitnessDesc pop

/-- Fitness of the top-ranked individual (Go `population[0].Fitness` after the
descending sort); the maximal fitness of `pop` when `pop` is nonempty. -/
def topFitness (pop : List Individual) : ℚ := ((sortPop pop).headD ⟨0, 0⟩).fitness

/-- One uniform draw of an individual, Go `population[rng.Intn(len(population))]`;
`rand.Intn` panics when the population is empty. -/
def pick (pop : List Individual) (r : Rng) (s : St) : Option (Individual × St) :=
  if pop.length = 0 then none
  else some (pop.getD (r.intnAt s.pos pop.length % pop.length) ⟨0, 0⟩, ⟨s.store, s.pos + 1⟩)

/-- Go `tournamentSelection` (lines 109-121): tournament size 3, keep the
strictly fitter candidate, first-drawn wins ties. -/
def tournamentSelection (pop : List Individual) (r : Rng) (s : St) : Option (Individual × St) :=
  match pick pop r s with
  | none => none
  | some (best0, s1) =>
    match pick pop r s1 with
    | none => none
    | some (c1, s2) =>
      let best1 := if c1.fitness > best0.fitness then c1 else best0
      match pick pop r s2 with
      | none => none
      | some (c2, s3) =>
        let best2 := if c2.fitness > best1.fitness then c2 else best1
        some (best2, s3)

/-- Go `onepointCrossover` (lines 130-143): draw a cut in `[0, len(parent1.Genes))`
(`rand.Intn` panics on an empty genotype), allocate two fresh children arrays,
child1 = parent1 before the cut ++ parent2 from the cut, child2 mirrored.
Children's `Fitness` is the Go zero value 0 (left unevaluated). -/
def onepointCrossover (p1 p2 : Individual) (r : Rng) (s : St) :
    Option (Individual × Individual × St) :=
  let g1 := deref s p1.genes
  let g2 := deref s p2.genes
  if g1.length = 0 then none
  else
    let point := r.intnAt s.pos g1.length % g1.length
    let a1 := alloc ⟨s.store, s.pos + 1⟩ (g1.take point ++ g2.drop point)
    let a2 := alloc a1.2 (g2.take point ++ g1.drop point)
    some (⟨a1.1, 0⟩, ⟨a2.1, 0⟩, a2.2)

/-- The per-position loop of Go `uniformCrossover` (lines 149-157): one fair
coin per position; heads gives child1 parent1's bit, tails swaps.  Recursion on
parent1's genes, as the Go loop bounds are `len(parent1.Genes)` (the engine
only ever crosses equal-length parents). -/
def uniformZip (r : Rng) : List Nat → List Nat → Nat → List Nat × List Nat × Nat
  | [], _, pos => ([], [], pos)
  | a :: tl, bs, pos =>
      let b := bs.headD 0
      let pr := if r.floatAt pos < 1/2 then (a, b) else (b, a)
      let rest := uniformZip r tl bs.tail (pos + 1)
      (pr.1 :: rest.1, pr.2 :: rest.2.1, rest.2.2)

/-- Go `uniformCrossover` (lines 145-160): allocate two fresh children filled
position-by-position from complementary parents. -/
def uniformCrossover (p1 p2 : Individual) (r : Rng) (s : St) :
    Option (Individual × Individual × St) :=
  let g1 := deref s p1.genes
  let g2 := deref s p2.genes
  let z := uniformZip r g1 g2 s.pos
  let a1 := alloc ⟨s.store, z.2.2⟩ z.1
  let a2 := alloc a1.2 z.2.1
  some (⟨a1.1, 0⟩, ⟨a2.1, 0⟩, a2.2)

/-- Go `crossover` (lines 123-128): `"onepoint"` dispatches to one-point,
every other string falls through to uniform. -/
def crossover (cfg : Config) (p1 p2 : Individual) (r : Rng) (s : St) :
    Option (Individual × Individual × St) :=
  if cfg.crossoverType = "onepoint" then onepointCrossover p1 p2 r s
  else uniformCrossover p1 p2 r s

/-- Go lines 165-169: flip a gene bit, `0 ↔ 1`. -/
def flipBit (b : Nat) : Nat := if b = 0 then 1 else 0

/-- The per-bit loop of Go `mutate` (lines 163-171): one `Float64` draw per
position; flip when it is below `MutationProb`. -/
def mutateGenes (cfg : Config) (r : Rng) : List Nat → Nat → List Nat × Nat
  | [], pos => ([], pos)
  | g :: gs, pos =>
      let g2 := if r.floatAt pos < cfg.mutationProb then flipBit g else g
      let rest := mutateGenes cfg r gs (pos + 1)
      (g2 :: rest.1, rest.2)

/-- Go `mutate` (lines 162-172): rewrites the individual's backing array in
place (through the shared slice header); the `Fitness` field is untouched. -/
def mutate (cfg : Config) (r : Rng) (ind : Individual) (s : St) : St :=
  let mg := mutateGenes cfg r (deref s ind.genes) s.pos
  ⟨s.store.set ind.genes mg.1, mg.2⟩

/-- The reproduction loop of Go `Run` (lines 75-97), structurally recursive on
fuel (each iteration appends at least one child, so `PopulationSize` units of
fuel always suffice; running out of fuel with room left cannot happen from
`Run` and is mapped to `none`). -/
def reproduce (cfg : Config) (r : Rng) (pop : List Individual) :
    Nat → List Individual → St → Option (List Individual × St)
  | 0, newPop, s =>
      if newPop.length < cfg.populationSize.toNat then none else some (newPop, s)
  | fuel + 1, newPop, s =>
      if newPop.length < cfg.populationSize.toNat then
        match tournamentSelection pop r s with
        | none => none
        | some (parent1, s1) =>
          match tournamentSelection pop r s1 with
          | none => none
          | some (parent2, s2) =>
            let s3 : St := ⟨s2.store, s2.pos + 1⟩
            match (if r.floatAt s2.pos < cfg.crossoverProb
                   then crossover cfg parent1 parent2 r s3
                   else some (parent1, parent2, s3)) with
            | none => none
            | some (child1, child2, s4) =>
              let s5 := mutate cfg r child1 s4
              let s6 := mutate cfg r child2 s5
              let c1 : Individual := ⟨child1.genes, cfg.fitnessFunc (deref s6 child1.genes)⟩
              let c2 : Individual := ⟨child2.genes, cfg.fitnessFunc (deref s6 child2.genes)⟩
              let np1 := newPop ++ [c1]
              let np2 := if np1.length < cfg.populationSize.toNat then np1 ++ [c2] else np1
              reproduce cfg r pop fuel np2 s6
      else some (newPop, s)

/-- One iteration of the generation loop of Go `Run` (lines 62-100): sort
descending in place, record the top fitness, copy the elites (struct copies,
sharing backing arrays), then fill with offspring.  `population[0]` panics when
the population is empty. -/
def generationStep (cfg : Config) (r : Rng) (pop : List Individual) (hist : List ℚ) (s : St) :
    Option (List Individual × List ℚ × St) :=
  let sorted := sortPop pop
  match sorted.head? with
  | none => none
  | some top =>
      let elites := sorted.take cfg.elitismCount.toNat
      match reproduce cfg r sorted cfg.populationSize.toNat elites s with
      | none => none
      | some (newPop, s2) => some (newPop, hist ++ [top.fitness], s2)

/-- The generation loop of Go `Run`, iterated `MaxGenerations` times. -/
def genLoop (cfg : Config) (r : Rng) :
    Nat → List Individual → List ℚ → St → Option (List Individual × List ℚ × St)
  | 0, pop, hist, s => some (pop, hist, s)
  | n + 1, pop, hist, s =>
      match generationStep cfg r pop hist s with
      | none => none
      | some (pop2, hist2, s2) => genLoop cfg r n pop2 hist2 s2

/-- The state threaded into a fresh run (empty store, no draws consumed). -/
def initSt : St := ⟨[], 0⟩

/-- Go `Run` (lines 59-107), additionally exposing the final sorted population
and the final state (gene store), which `Run` keeps in the engine struct.
Returns the best individual, the convergence history, the final population and
the final state; `none` models a runtime panic. -/
def runFull (cfg : Config) (r : Rng) : Option (Individual × List ℚ × List Individual × St) :=
  match initPopulation cfg r initSt with
  | none => none
  | some (pop0, s0) =>
    match genLoop cfg r cfg.maxGenerations.toNat pop0 [] s0 with
    | none => none
    | some (popF, hist, sF) =>
      let sorted := sortPop popF
      match sorted.head? with
      | none => none
      | some best => some (best, hist, sorted, sF)

/-- Go `Run`'s exact return shape: `(Individual, []float64)`. -/
def Run (cfg : Config) (r : Rng) : Option (Individual × List ℚ) :=
  (runFull cfg r).map (fun x => (x.1, x.2.1))

/-- The engine struct: its config and its exclusively owned random source
(Go `GeneticAlgorithm`; `population`/`bestFitness` start empty and are
threaded through `runFull`). -/
structure GeneticAlgorithm where
  config : Config
  rng : Rng

/-- Go `NewGeneticAlgorithm` (lines 33-39): a fresh engine owning
`rand.New(rand.NewSource(config.Seed))`; `rngAlg` abstracts the PRNG stream
that `rand.NewSource` derives from a seed. -/
def newGeneticAlgorithm (rngAlg : Int → Rng) (cfg : Config) : GeneticAlgorithm :=
  ⟨cfg, rngAlg cfg.seed⟩

/-- A run of one engine instance. -/
def GeneticAlgorithm.runEngine (ga : GeneticAlgorithm) :
    Option (Individual × List ℚ × List Individual × St) :=
  runFull ga.config ga.rng

/-- Read a 64-bit machine word as Go's signed `int64` (two's complement). -/
def toInt64 (w : Nat) : Int := if w < 2 ^ 63 then (w : Int) else (w : Int) - 2 ^ 64

/-- The 64-bit two's-complement word of a Go `int64` value. -/
def wordOfInt64 (a : Int) : Nat := (a % 2 ^ 64).toNat

/-- Go `int64` subtraction, wrapping on overflow. -/
def int64Sub (a b : Int) : Int := toInt64 (wordOfInt64 (a - b))

/-- Go `1 << i` on `int64`: the low 64 bits of the shift (`2^i` for `i < 64`,
`math.MinInt64` at `i = 63`, 0 from `i = 64` on). -/
def int64Shl1 (i : Nat) : Int := toInt64 ((1 <<< i) % 2 ^ 64)

/-- The loop of Go `BytesToInt` (lines 174-182) at the level of the result's
64-bit word: bit `i` contributes the word of `1 << i`; `result |= …` over
distinct bit positions (and zero words from positions ≥ 64) is addition, and
the accumulated word never exceeds `2^64 - 1`. -/
def bytesToWordFrom : List Nat → Nat → Nat
  | [], _ => 0
  | g :: gs, i => (if g = 1 then (1 <<< i) % 2 ^ 64 else 0) + bytesToWordFrom gs (i + 1)

/-- Go `BytesToInt`: the signed `int64` reading of the accumulated word. -/
def BytesToInt (genes : List Nat) : Int := toInt64 (bytesToWordFrom genes 0)

/-- Go `BytesToFloat` (lines 184-189): `maxInt := (1 << len(genes)) - 1` in
`int64` arithmetic, then normalize and map linearly onto `[lo, hi]`.  The
`float64` conversions, division and linear map are modelled as exact
rationals; IEEE rounding is outside the model. -/
def BytesToFloat (genes : List Nat) (lo hi : ℚ) : ℚ :=
  let intVal := BytesToInt genes
  let maxInt := int64Sub (int64Shl1 genes.length) 1
  let normalized := (intVal : ℚ) / ((maxInt : Int) : ℚ)
  lo + normalized * (hi - lo)

/-- A fixed oracle (every `Float64` draw 0, every `Intn` draw 0), used as the
concrete random source of witnesses. -/
def constRng : Rng := ⟨fun _ => 0, fun _ _ => 0⟩

/-- Every backing array in the gene store has length `B` (`BitsPerGene`). -/
def StoreOK (B : Nat) (s : St) : Prop := ∀ g ∈ s.store, g.length = B

/-- Every individual of `pop` points at an allocated backing array. -/
def PopOK (s : St) (pop : List Individual) : Prop := ∀ i ∈ pop, i.genes < s.store.length

/-- A small valid configuration used by witnesses. -/
def cfgW : Config := ⟨2, 1, 0, 0, "uniform", 1, 2, fun g => (BytesToInt g : ℚ), 7⟩

/-- A degenerate configuration: `PopulationSize = 0`, everything else valid. -/
def cfgZeroPop : Config := ⟨0, 0, 0, 0, "uniform", 1, 3, fun _ => 0, 0⟩

/-- A configuration violating most of the claimed validation rules at once:
`MaxGenerations = -1`, probabilities 2 (outside [0,1]), an unrecognized
`CrossoverType`, `BitsPerGene = 0`. -/
def cfgNoCheck : Config := ⟨1, -1, 2, 2, "weird", 1, 0, fun _ => 0, 0⟩

/-- The constant oracle only produces values in [0,1). -/
theorem constRng_valid : constRng.Valid := fun _ => ⟨le_refl 0, zero_lt_one⟩

/-- Sorting permutes the population. -/
theorem sortPop_perm (pop : List Individual) : (sortPop pop).Perm pop :=
  List.perm_insertionSort fitnessDesc pop

/-- The sorted population is descending by fitness. -/
theorem sortPop_sorted (pop : List Individual) : (sortPop pop).Sorted fitnessDesc :=
  List.sorted_insertionSort fitnessDesc pop

/-- Membership is unchanged by sorting. -/
theorem mem_sortPop {x : Individual} {pop : List Individual} : x ∈ sortPop pop ↔ x ∈ pop :=
  (sortPop_perm pop).mem_iff

/-- Sorting preserves the population size. -/
theorem length_sortPop (pop : List Individual) : (sortPop pop).length = pop.length :=
  (sortPop_perm pop).length_eq

/-- The fitness recorded from the sorted head bounds every member's fitness. -/
theorem topFitness_max {pop : List Individual} {x : Individual} (hx : x ∈ pop) :
    x.fitness ≤ topFitness pop := by
  have hmem : x ∈ sortPop pop := mem_sortPop.mpr hx
  have hs := sortPop_sorted pop
  unfold topFitness
  rcases hsp : sortPop pop with _ | ⟨a, l⟩
  · rw [hsp] at hmem; cases hmem
  · rw [hsp] at hmem hs
    rcases List.mem_cons.mp hmem with h | h
    · subst h; simp
    · simpa using List.rel_of_sorted_cons hs x h

/-- The sorted head of a nonempty population is one of its members. -/
theorem headD_sortPop_mem {pop : List Individual} (h : pop ≠ []) :
    (sortPop pop).headD ⟨0, 0⟩ ∈ pop := by
  rcases hsp : sortPop pop with _ | ⟨a, l⟩
  · have h0 : pop.Perm [] := by have hp := sortPop_perm pop; rw [hsp] at hp; exact hp.symm
    exact absurd h0.eq_nil h
  · have : a ∈ sortPop pop := by rw [hsp]; exact List.mem_cons_self a l
    simpa using mem_sortPop.mp this

/-- Reading back a freshly allocated backing array. -/
theorem getD_concat_self (l : List (List Nat)) (g : List Nat) : (l ++ [g]).getD l.length [] = g := by
  simp [List.getD_eq_getElem?_getD, List.getElem?_concat_length]

/-- Older backing arrays are unchanged by an allocation. -/
theorem getD_append_of_lt (l t : List (List Nat)) {p : Nat} (hp : p < l.length) :
    (l ++ t).getD p [] = l.getD p [] := by
  simp [List.getD_eq_getElem?_getD, List.getElem?_append, hp]

/-- Reading back an in-place write of a backing array. -/
theorem getD_set_self (l : List (List Nat)) (i : Nat) (a : List Nat) :
    (l.set i a).getD i [] = if i < l.length then a else l.getD i [] := by
  by_cases h : i < l.length
  · simp [List.getD_eq_getElem?_getD, List.getElem?_set_self h, h]
  · rw [List.set_eq_of_length_le (le_of_not_lt h)]; simp [h]

/-- Dereferencing an explicitly given state. -/
theorem deref_mk (A : List (List Nat)) (p q : Nat) : deref ⟨A, p⟩ q = A.getD q [] := rfl

/-- Indexing at 0 is the head. -/
theorem getD_zero_headD (l : List Nat) : l.getD 0 0 = l.headD 0 := by cases l <;> rfl

/-- Indexing at `i+1` is indexing the tail at `i`. -/
theorem getD_succ_tail (l : List Nat) (i : Nat) : l.getD (i + 1) 0 = l.tail.getD i 0 := by
  cases l <;> rfl

/-- For bit positions below 64, the word of `1 << i` is `2^i`. -/
theorem shl1_mod {i : Nat} (h : i < 64) : (1 <<< i) % 2 ^ 64 = 2 ^ i := by
  rw [Nat.shiftLeft_eq, one_mul]
  exact Nat.mod_eq_of_lt (Nat.pow_lt_pow_right (by norm_num) h)

/-- The word accumulated from bit position `i` of a genotype whose bit span
fits in 64 bits is bounded by that span. -/
theorem bytesToWordFrom_le :
    ∀ (gs : List Nat) (i : Nat), i + gs.length ≤ 64 →
    bytesToWordFrom gs i ≤ 2 ^ (i + gs.length) - 2 ^ i := by
  intro gs
  induction gs with
  | nil => intro i _; simp [bytesToWordFrom]
  | cons g tl ih =>
      intro i hle
      have hlen : i + (g :: tl).length = (i + 1) + tl.length := by
        simp only [List.length_cons]; omega
      have hi64 : i < 64 := by
        simp only [List.length_cons] at hle; omega
      have hrec := ih (i + 1) (by rw [← hlen]; exact hle)
      have h2 : (2 : Nat) ^ (i + 1) ≤ 2 ^ ((i + 1) + tl.length) :=
        Nat.pow_le_pow_right (by norm_num) (by omega)
      have hpow : (2 : Nat) ^ (i + 1) = 2 * 2 ^ i := by rw [pow_succ]; ring
      have h1 : (1 : Nat) ≤ 2 ^ i := Nat.one_le_pow _ _ (by norm_num)
      simp only [bytesToWordFrom, shl1_mod hi64]
      rw [hlen]
      split <;> omega

/-- A genotype of length at most 63 accumulates a word below `2^63`, so its
signed `int64` reading is the word itself (no wrap). -/
theorem bytesToInt_eq_word {genes : List Nat} (hL : genes.length ≤ 63) :
    BytesToInt genes = (bytesToWordFrom genes 0 : Int) := by
  have hb := bytesToWordFrom_le genes 0 (by omega)
  have hP1 : (1 : Nat) ≤ 2 ^ (0 + genes.length) := Nat.one_le_pow _ _ (by norm_num)
  have h2 : (2 : Nat) ^ (0 + genes.length) ≤ 2 ^ 63 := Nat.pow_le_pow_right (by norm_num) (by omega)
  have hq0 : (2 : Nat) ^ (0 : Nat) = 1 := pow_zero 2
  have hlt : bytesToWordFrom genes 0 < 2 ^ 63 := by omega
  unfold BytesToInt toInt64
  rw [if_pos hlt]

/-- Go `int64` subtraction of 1 from an in-range word value. -/
theorem int64Sub_one {w : Nat} (h1 : 1 ≤ w) (h2 : w < 2 ^ 64) :
    int64Sub (toInt64 w) 1 = toInt64 (w - 1) := by
  have p63n : (2 : Nat) ^ 63 = 9223372036854775808 := by norm_num
  have p64n : (2 : Nat) ^ 64 = 18446744073709551616 := by norm_num
  have p63i : (2 : Int) ^ 63 = 9223372036854775808 := by norm_num
  have p64i : (2 : Int) ^ 64 = 18446744073709551616 := by norm_num
  unfold int64Sub wordOfInt64 toInt64
  simp only [p63n, p64n, p63i, p64i] at h2 ⊢
  split_ifs <;> omega

/-- For lengths `1 ≤ L ≤ 63`, Go's `(1 << L) - 1` in `int64` arithmetic is the
ideal `2^L - 1` (at `L = 63` both the shift and the subtraction wrap, landing
back on `math.MaxInt64 = 2^63 - 1`). -/
theorem maxInt64_eq {L : Nat} (hL1 : 1 ≤ L) (hL : L ≤ 63) :
    int64Sub (int64Shl1 L) 1 = ((2 ^ L - 1 : Nat) : Int) := by
  have hlt64 : (2 : Nat) ^ L < 2 ^ 64 := Nat.pow_lt_pow_right (by norm_num) (by omega)
  have h1 : (1 : Nat) ≤ 2 ^ L := Nat.one_le_pow _ _ (by norm_num)
  have hle63 : (2 : Nat) ^ L ≤ 2 ^ 63 := Nat.pow_le_pow_right (by norm_num) hL
  have hshl : int64Shl1 L = toInt64 (2 ^ L) := by
    unfold int64Shl1
    rw [Nat.shiftLeft_eq, one_mul, Nat.mod_eq_of_lt hlt64]
  rw [hshl, int64Sub_one h1 hlt64]
  unfold toInt64
  rw [if_pos (by omega)]

/-- An all-zero genotype accumulates the zero word from any bit position. -/
theorem bytesToWordFrom_replicate_zero (L i : Nat) :
    bytesToWordFrom (List.replicate L 0) i = 0 := by
  induction L generalizing i with
  | zero => rfl
  | succ n ih => simp [List.replicate_succ, bytesToWordFrom, ih]

/-- An all-one genotype fitting in 64 bits accumulates `2^i * (2^L - 1)` from
bit position `i`. -/
theorem bytesToWordFrom_replicate_one :
    ∀ (L i : Nat), i + L ≤ 64 →
    bytesToWordFrom (List.replicate L 1) i = 2 ^ i * (2 ^ L - 1) := by
  intro L
  induction L with
  | zero => intro i _; simp [bytesToWordFrom]
  | succ n ih =>
      intro i h
      have hi64 : i < 64 := by omega
      have h1 : 1 ≤ 2 ^ n := Nat.one_le_pow _ _ (by norm_num)
      obtain ⟨c, hc⟩ : ∃ c, 2 ^ n = c + 1 := ⟨2 ^ n - 1, by omega⟩
      have h2 : 2 ^ (n + 1) - 1 = 2 * c + 1 := by rw [pow_succ, hc]; omega
      have h3 : 2 ^ n - 1 = c := by omega
      have hrec := ih (i + 1) (by omega)
      simp only [List.replicate_succ, bytesToWordFrom, if_pos rfl, shl1_mod hi64, hrec, h2, h3]
      rw [pow_succ]
      simp only [if_true]
      ring

/-- An all-zero genotype decodes to the signed value 0. -/
theorem bytesToInt_replicate_zero (L : Nat) : BytesToInt (List.replicate L 0) = 0 := by
  unfold BytesToInt
  rw [bytesToWordFrom_replicate_zero]
  decide

/-- C9 (amended): restricted to gene lengths `1 ≤ L ≤ 63` — where Go's
64-bit `int` arithmetic agrees with unbounded integers; from `L = 64` on
`BytesToInt` wraps and monotonicity fails, see the counterexample — and with
the float64 conversions, division and linear map read in exact real
arithmetic: `BytesToFloat` is monotone non-decreasing in `BytesToInt`, the
all-zero genotype decodes to the lower bound and the all-one genotype to the
upper bound. -/
theorem c9_decode_monotone_endpoints (L : Nat) (hL : 1 ≤ L) (hL63 : L ≤ 63)
    (lo hi : ℚ) (hlh : lo ≤ hi) (g1 g2 : List Nat)
    (h1 : g1.length = L) (h2 : g2.length = L)
    (hm : BytesToInt g1 ≤ BytesToInt g2) :
    BytesToFloat g1 lo hi ≤ BytesToFloat g2 lo hi ∧
    BytesToFloat (List.replicate L 0) lo hi = lo ∧
    BytesToFloat (List.replicate L 1) lo hi = hi := by
  have hmax : 1 ≤ 2 ^ L - 1 := by
    have : (2 : Nat) ^ 1 ≤ 2 ^ L := Nat.pow_le_pow_right (by norm_num) hL
    omega
  have hq : (0 : ℚ) < ((2 ^ L - 1 : Nat) : ℚ) := by
    exact_mod_cast Nat.lt_of_lt_of_le Nat.zero_lt_one hmax
  have hmaxint : int64Sub (int64Shl1 L) 1 = ((2 ^ L - 1 : Nat) : Int) := maxInt64_eq hL hL63
  refine ⟨?_, ?_, ?_⟩
  · simp only [BytesToFloat]
    rw [h1, h2, hmaxint, Int.cast_natCast]
    refine add_le_add_left (mul_le_mul_of_nonneg_right ?_ (by linarith)) lo
    exact (div_le_div_iff_of_pos_right hq).mpr (by exact_mod_cast hm)
  · simp only [BytesToFloat]
    rw [bytesToInt_replicate_zero]
    simp
  · simp only [BytesToFloat]
    rw [List.length_replicate, hmaxint]
    have hword : BytesToInt (List.replicate L 1) = ((2 ^ L - 1 : Nat) : Int) := by
      rw [bytesToInt_eq_word (by rw [List.length_replicate]; exact hL63)]
      rw [bytesToWordFrom_replicate_one L 0 (by omega)]
      simp
    rw [hword, Int.cast_natCast, div_self (ne_of_gt hq)]
    ring

/-- C9 counterexample: at gene length 64 Go's `int64` wraps — `maxInt`
becomes `-1` — and decoding is anti-monotone.  The all-zero genotype and the
genotype with only bit 0 set satisfy every hypothesis of the original claim
(`L ≥ 1`, bounds `0 ≤ 1`, equal lengths, `BytesToInt` non-decreasing), yet
the second decodes strictly below the first. -/
theorem c9_decode_counterexample :
    1 ≤ 64 ∧ (0 : ℚ) ≤ 1 ∧
    (List.replicate 64 0 : List Nat).length = 64 ∧
    ((1 : Nat) :: List.replicate 63 0).length = 64 ∧
    BytesToInt (List.replicate 64 0) ≤ BytesToInt (1 :: List.replicate 63 0) ∧
    ¬ BytesToFloat (List.replicate 64 0) 0 1 ≤ BytesToFloat (1 :: List.replicate 63 0) 0 1 := by
  have hz : BytesToInt (List.replicate 64 0) = 0 := by decide
  have ho : BytesToInt ((1 : Nat) :: List.replicate 63 0) = 1 := by decide
  have hmax : int64Sub (int64Shl1 64) 1 = -1 := by decide
  refine ⟨by norm_num, by norm_num, by simp, by simp, ?_, ?_⟩
  · rw [hz, ho]; norm_num
  · simp only [BytesToFloat]
    rw [hz, ho,
      show (List.replicate 64 (0 : Nat)).length = 64 by simp,
      show ((1 : Nat) :: List.replicate 63 0).length = 64 by simp, hmax]
    push_cast
    norm_num

/-- C9 witness at length 2, bounds [0, 3], genotypes [1,0] and [0,1]. -/
theorem c9_decode_witness :
    (1 ≤ 2 ∧ 2 ≤ 63 ∧ (0 : ℚ) ≤ 3 ∧ ([1, 0] : List Nat).length = 2 ∧
      ([0, 1] : List Nat).length = 2 ∧ BytesToInt [1, 0] ≤ BytesToInt [0, 1]) ∧
    (BytesToFloat [1, 0] 0 3 ≤ BytesToFloat [0, 1] 0 3 ∧
      BytesToFloat (List.replicate 2 0) 0 3 = 0 ∧
      BytesToFloat (List.replicate 2 1) 0 3 = 3) :=
  ⟨⟨by decide, by decide, by norm_num, by decide, by decide, by decide⟩,
    c9_decode_monotone_endpoints 2 (by decide) (by decide) 0 3 (by norm_num) [1, 0] [0, 1]
      (by decide) (by decide) (by decide)⟩

/-- C6: one-point crossover on parents of equal gene length `L ≥ 1` draws a cut
`c ∈ [0, L)` and returns child1 = parent1 before the cut ++ parent2 from the
cut, child2 mirrored, both of length `L`, with fitness left unevaluated (the Go
zero value 0). -/
theorem c6_onepoint_structure (p1 p2 : Individual) (r : Rng) (s : St) (L : Nat) (hL : 1 ≤ L)
    (h1 : (deref s p1.genes).length = L) (h2 : (deref s p2.genes).length = L) :
    ∃ c1 c2 s' cut, onepointCrossover p1 p2 r s = some (c1, c2, s') ∧ cut < L ∧
      deref s' c1.genes = (deref s p1.genes).take cut ++ (deref s p2.genes).drop cut ∧
      deref s' c2.genes = (deref s p2.genes).take cut ++ (deref s p1.genes).drop cut ∧
      (deref s' c1.genes).length = L ∧ (deref s' c2.genes).length = L ∧
      c1.fitness = 0 ∧ c2.fitness = 0 := by
  have hne : (deref s p1.genes).length ≠ 0 := by omega
  have hcutL : r.intnAt s.pos (deref s p1.genes).length % (deref s p1.genes).length < L := by
    rw [← h1]; exact Nat.mod_lt _ (Nat.pos_of_ne_zero hne)
  have hd1 : deref
      (⟨s.store ++ [(deref s p1.genes).take (r.intnAt s.pos (deref s p1.genes).length % (deref s p1.genes).length) ++
          (deref s p2.genes).drop (r.intnAt s.pos (deref s p1.genes).length % (deref s p1.genes).length)] ++
        [(deref s p2.genes).take (r.intnAt s.pos (deref s p1.genes).length % (deref s p1.genes).length) ++
          (deref s p1.genes).drop (r.intnAt s.pos (deref s p1.genes).length % (deref s p1.genes).length)], s.pos + 1⟩ : St)
      s.store.length =
      (deref s p1.genes).take (r.intnAt s.pos (deref s p1.genes).length % (deref s p1.genes).length) ++
        (deref s p2.genes).drop (r.intnAt s.pos (deref s p1.genes).length % (deref s p1.genes).length) := by
    rw [deref_mk, getD_append_of_lt _ _ (by simp), getD_concat_self]
  have hd2 : deref
      (⟨s.store ++ [(deref s p1.genes).take (r.intnAt s.pos (deref s p1.genes).length % (deref s p1.genes).length) ++
          (deref s p2.genes).drop (r.intnAt s.pos (deref s p1.genes).length % (deref s p1.genes).length)] ++
        [(deref s p2.genes).take (r.intnAt s.pos (deref s p1.genes).length % (deref s p1.genes).length) ++
          (deref s p1.genes).drop (r.intnAt s.pos (deref s p1.genes).length % (deref s p1.genes).length)], s.pos + 1⟩ : St)
      (s.store.length + 1) =
      (deref s p2.genes).take (r.intnAt s.pos (deref s p1.genes).length % (deref s p1.genes).length) ++
        (deref s p1.genes).drop (r.intnAt s.pos (deref s p1.genes).length % (deref s p1.genes).length) := by
    have hlen : s.store.length + 1 = (s.store ++ [(deref s p1.genes).take (r.intnAt s.pos (deref s p1.genes).length % (deref s p1.genes).length) ++
        (deref s p2.genes).drop (r.intnAt s.pos (deref s p1.genes).length % (deref s p1.genes).length)]).length := by
      simp
    rw [deref_mk, hlen, getD_concat_self]
  refine ⟨⟨s.store.length, 0⟩, ⟨s.store.length + 1, 0⟩, _, _, ?_, hcutL, hd1, hd2, ?_, ?_, rfl, rfl⟩
  · simp only [onepointCrossover, alloc, if_neg hne]
    simp
  · rw [hd1]
    simp only [List.length_append, List.length_take, List.length_drop, h1, h2]
    omega
  · rw [hd2]
    simp only [List.length_append, List.length_take, List.length_drop, h1, h2]
    omega

/-- C6 witness: parents of length 2 stored at pointers 0 and 1. -/
theorem c6_onepoint_witness :
    (1 ≤ 2 ∧ (deref ⟨[[1, 0], [0, 1]], 0⟩ (0 : Nat)).length = 2 ∧
      (deref ⟨[[1, 0], [0, 1]], 0⟩ (1 : Nat)).length = 2) ∧
    (∃ c1 c2 s' cut,
      onepointCrossover ⟨0, 5⟩ ⟨1, 7⟩ constRng ⟨[[1, 0], [0, 1]], 0⟩ = some (c1, c2, s') ∧
      cut < 2 ∧
      deref s' c1.genes =
        (deref ⟨[[1, 0], [0, 1]], 0⟩ (Individual.genes ⟨0, 5⟩)).take cut ++
          (deref ⟨[[1, 0], [0, 1]], 0⟩ (Individual.genes ⟨1, 7⟩)).drop cut ∧
      deref s' c2.genes =
        (deref ⟨[[1, 0], [0, 1]], 0⟩ (Individual.genes ⟨1, 7⟩)).take cut ++
          (deref ⟨[[1, 0], [0, 1]], 0⟩ (Individual.genes ⟨0, 5⟩)).drop cut ∧
      (deref s' c1.genes).length = 2 ∧ (deref s' c2.genes).length = 2 ∧
      c1.fitness = 0 ∧ c2.fitness = 0) :=
  ⟨⟨by decide, by decide, by decide⟩,
    c6_onepoint_structure ⟨0, 5⟩ ⟨1, 7⟩ constRng ⟨[[1, 0], [0, 1]], 0⟩ 2
      (by decide) (by decide) (by decide)⟩

/-- In uniform crossover, at every position within parent1's genes the two
children take their bits from complementary parents. -/
theorem uniformZip_complementary (r : Rng) (g1 : List Nat) :
    ∀ (g2 : List Nat) (pos i : Nat), i < g1.length →
    (((uniformZip r g1 g2 pos).1.getD i 0 = g1.getD i 0 ∧
      (uniformZip r g1 g2 pos).2.1.getD i 0 = g2.getD i 0) ∨
     ((uniformZip r g1 g2 pos).1.getD i 0 = g2.getD i 0 ∧
      (uniformZip r g1 g2 pos).2.1.getD i 0 = g1.getD i 0)) := by
  induction g1 with
  | nil => intro g2 pos i hi; simp at hi
  | cons a tl ih =>
      intro g2 pos i hi
      match i with
      | 0 =>
          rcases lt_or_ge (r.floatAt pos) (1/2) with hc | hc
          · exact Or.inl ⟨by simp only [uniformZip, if_pos hc, getD_zero_headD]; rfl,
              by simp only [uniformZip, if_pos hc, getD_zero_headD]; rfl⟩
          · exact Or.inr ⟨by simp only [uniformZip, if_neg (not_lt.mpr hc), getD_zero_headD]; rfl,
              by simp only [uniformZip, if_neg (not_lt.mpr hc), getD_zero_headD]; rfl⟩
      | i + 1 =>
          have hi' : i < tl.length := by simpa using hi
          have hrec := ih g2.tail (pos + 1) i hi'
          rcases lt_or_ge (r.floatAt pos) (1/2) with hc | hc
          · simpa only [uniformZip, if_pos hc, List.getD_cons_succ, getD_succ_tail] using hrec
          · simpa only [uniformZip, if_neg (not_lt.mpr hc), List.getD_cons_succ,
              getD_succ_tail] using hrec

/-- C7: uniform crossover on parents of equal gene length produces children
whose bits at every position come from complementary parents: either child1
takes parent1's bit and child2 parent2's, or the swap — never both from the
same parent. -/
theorem c7_uniform_complementary (p1 p2 : Individual) (r : Rng) (s : St) (L : Nat)
    (h1 : (deref s p1.genes).length = L) (h2 : (deref s p2.genes).length = L) :
    ∃ c1 c2 s', uniformCrossover p1 p2 r s = some (c1, c2, s') ∧
      ∀ i < L,
        ((deref s' c1.genes).getD i 0 = (deref s p1.genes).getD i 0 ∧
         (deref s' c2.genes).getD i 0 = (deref s p2.genes).getD i 0) ∨
        ((deref s' c1.genes).getD i 0 = (deref s p2.genes).getD i 0 ∧
         (deref s' c2.genes).getD i 0 = (deref s p1.genes).getD i 0) := by
  have hd1 : deref
      (⟨s.store ++ [(uniformZip r (deref s p1.genes) (deref s p2.genes) s.pos).1] ++
        [(uniformZip r (deref s p1.genes) (deref s p2.genes) s.pos).2.1],
        (uniformZip r (deref s p1.genes) (deref s p2.genes) s.pos).2.2⟩ : St) s.store.length =
      (uniformZip r (deref s p1.genes) (deref s p2.genes) s.pos).1 := by
    rw [deref_mk, getD_append_of_lt _ _ (by simp), getD_concat_self]
  have hd2 : deref
      (⟨s.store ++ [(uniformZip r (deref s p1.genes) (deref s p2.genes) s.pos).1] ++
        [(uniformZip r (deref s p1.genes) (deref s p2.genes) s.pos).2.1],
        (uniformZip r (deref s p1.genes) (deref s p2.genes) s.pos).2.2⟩ : St)
      (s.store.length + 1) =
      (uniformZip r (deref s p1.genes) (deref s p2.genes) s.pos).2.1 := by
    have hlen : s.store.length + 1 =
        (s.store ++ [(uniformZip r (deref s p1.genes) (deref s p2.genes) s.pos).1]).length := by simp
    rw [deref_mk, hlen, getD_concat_self]
  refine ⟨⟨s.store.length, 0⟩, ⟨s.store.length + 1, 0⟩,
    ⟨s.store ++ [(uniformZip r (deref s p1.genes) (deref s p2.genes) s.pos).1] ++
      [(uniformZip r (deref s p1.genes) (deref s p2.genes) s.pos).2.1],
      (uniformZip r (deref s p1.genes) (deref s p2.genes) s.pos).2.2⟩, ?_, ?_⟩
  · simp only [uniformCrossover, alloc]
    simp
  · intro i hiL
    rw [hd1, hd2]
    exact uniformZip_complementary r (deref s p1.genes) (deref s p2.genes) s.pos i (by omega)

/-- C7 witness: parents of length 2 stored at pointers 0 and 1. -/
theorem c7_uniform_witness :
    ((deref ⟨[[1, 0], [0, 1]], 0⟩ (0 : Nat)).length = 2 ∧
      (deref ⟨[[1, 0], [0, 1]], 0⟩ (1 : Nat)).length = 2) ∧
    (∃ c1 c2 s', uniformCrossover ⟨0, 5⟩ ⟨1, 7⟩ constRng ⟨[[1, 0], [0, 1]], 0⟩ = some (c1, c2, s') ∧
      ∀ i < 2,
        ((deref s' c1.genes).getD i 0 = (deref ⟨[[1, 0], [0, 1]], 0⟩ (Individual.genes ⟨0, 5⟩)).getD i 0 ∧
         (deref s' c2.genes).getD i 0 = (deref ⟨[[1, 0], [0, 1]], 0⟩ (Individual.genes ⟨1, 7⟩)).getD i 0) ∨
        ((deref s' c1.genes).getD i 0 = (deref ⟨[[1, 0], [0, 1]], 0⟩ (Individual.genes ⟨1, 7⟩)).getD i 0 ∧
         (deref s' c2.genes).getD i 0 = (deref ⟨[[1, 0], [0, 1]], 0⟩ (Individual.genes ⟨0, 5⟩)).getD i 0)) :=
  ⟨⟨by decide, by decide⟩,
    c7_uniform_complementary ⟨0, 5⟩ ⟨1, 7⟩ constRng ⟨[[1, 0], [0, 1]], 0⟩ 2 (by decide) (by decide)⟩

/-- With mutation probability 0 no draw fires (draws are ≥ 0). -/
theorem mutateGenes_zero (cfg : Config) (r : Rng) (hr : r.Valid) (hp : cfg.mutationProb = 0) :
    ∀ (g : List Nat) (pos : Nat), (mutateGenes cfg r g pos).1 = g := by
  intro g
  induction g with
  | nil => intro pos; rfl
  | cons b tl ih =>
      intro pos
      simp only [mutateGenes, hp, if_neg (not_lt.mpr (hr pos).1), ih]

/-- With mutation probability 1 every draw fires (draws are < 1). -/
theorem mutateGenes_one (cfg : Config) (r : Rng) (hr : r.Valid) (hp : cfg.mutationProb = 1) :
    ∀ (g : List Nat) (pos : Nat), (mutateGenes cfg r g pos).1 = g.map flipBit := by
  intro g
  induction g with
  | nil => intro pos; rfl
  | cons b tl ih =>
      intro pos
      simp only [mutateGenes, hp, if_pos (hr pos).2, ih, List.map_cons]

/-- C8: for every genotype and every draw sequence of Go's `Float64`
(values in [0,1)), mutation with `MutationProb = 0` leaves the genotype
byte-for-byte unchanged and mutation with `MutationProb = 1` flips every
bit. -/
theorem c8_mutation_extremes (cfg : Config) (r : Rng) (ind : Individual) (s : St)
    (hr : r.Valid) :
    (cfg.mutationProb = 0 → deref (mutate cfg r ind s) ind.genes = deref s ind.genes) ∧
    (cfg.mutationProb = 1 →
      deref (mutate cfg r ind s) ind.genes = (deref s ind.genes).map flipBit) := by
  constructor <;> intro hp
  · simp only [mutate]
    rw [mutateGenes_zero cfg r hr hp]
    show (s.store.set ind.genes (deref s ind.genes)).getD ind.genes [] = _
    rw [getD_set_self]
    split <;> rfl
  · simp only [mutate]
    rw [mutateGenes_one cfg r hr hp]
    show (s.store.set ind.genes ((deref s ind.genes).map flipBit)).getD ind.genes [] = _
    rw [getD_set_self]
    split
    · rfl
    · rename_i h
      show deref s ind.genes = _
      rw [show deref s ind.genes = ([] : List Nat) from
        List.getD_eq_default _ _ (le_of_not_lt h)]
      rfl

/-- C8 witness: a two-bit genotype at pointer 0, both extreme probabilities. -/
theorem c8_mutation_witness :
    constRng.Valid ∧
    ((Config.mutationProb ⟨1, 0, 0, 0, "uniform", 0, 2, fun _ => 0, 0⟩ = 0 →
      deref (mutate ⟨1, 0, 0, 0, "uniform", 0, 2, fun _ => 0, 0⟩ constRng ⟨0, 3⟩ ⟨[[1, 0]], 0⟩) 0 =
        deref ⟨[[1, 0]], 0⟩ 0) ∧
     (Config.mutationProb ⟨1, 0, 0, 0, "uniform", 0, 2, fun _ => 0, 0⟩ = 1 →
      deref (mutate ⟨1, 0, 0, 0, "uniform", 0, 2, fun _ => 0, 0⟩ constRng ⟨0, 3⟩ ⟨[[1, 0]], 0⟩) 0 =
        (deref ⟨[[1, 0]], 0⟩ 0).map flipBit)) :=
  ⟨constRng_valid, c8_mutation_extremes ⟨1, 0, 0, 0, "uniform", 0, 2, fun _ => 0, 0⟩
    constRng ⟨0, 3⟩ ⟨[[1, 0]], 0⟩ constRng_valid⟩

/-- C3: two engines freshly constructed from the same seed, config and PRNG
stream produce identical output — best individual, history, final population
and final gene store.  The embedding is pure exactly because the Go engine
reads randomness only from the generator it owns and touches no shared
state. -/
theorem c3_run_deterministic (rngAlg : Int → Rng) (cfg : Config) (e1 e2 : GeneticAlgorithm)
    (h1 : e1 = newGeneticAlgorithm rngAlg cfg) (h2 : e2 = newGeneticAlgorithm rngAlg cfg) :
    e1.runEngine = e2.runEngine := by subst h1; subst h2; rfl

/-- C3 witness: two independent engine values built from `cfgW`. -/
theorem c3_run_witness :
    newGeneticAlgorithm (fun _ => constRng) cfgW = newGeneticAlgorithm (fun _ => constRng) cfgW ∧
    (newGeneticAlgorithm (fun _ => constRng) cfgW).runEngine =
      (newGeneticAlgorithm (fun _ => constRng) cfgW).runEngine :=
  ⟨rfl, c3_run_deterministic (fun _ => constRng) cfgW _ _ rfl rfl⟩

/-- Mutation rewrites bit-for-bit, preserving the genotype length. -/
theorem mutateGenes_length (cfg : Config) (r : Rng) :
    ∀ (g : List Nat) (pos : Nat), (mutateGenes cfg r g pos).1.length = g.length := by
  intro g
  induction g with
  | nil => intro pos; rfl
  | cons b tl ih => intro pos; simp [mutateGenes, ih]

/-- Initialization draws exactly `n` bits. -/
theorem randBits_length (r : Rng) : ∀ (n pos : Nat), (randBits r n pos).1.length = n := by
  intro n
  induction n with
  | zero => intro pos; rfl
  | succ m ih => intro pos; simp [randBits, ih]

/-- Uniform crossover's first child has parent1's gene length. -/
theorem uniformZip_length1 (r : Rng) :
    ∀ (g1 g2 : List Nat) (pos : Nat), (uniformZip r g1 g2 pos).1.length = g1.length := by
  intro g1
  induction g1 with
  | nil => intro g2 pos; rfl
  | cons a tl ih => intro g2 pos; simp [uniformZip, ih]

/-- Uniform crossover's second child has parent1's gene length. -/
theorem uniformZip_length2 (r : Rng) :
    ∀ (g1 g2 : List Nat) (pos : Nat), (uniformZip r g1 g2 pos).2.1.length = g1.length := by
  intro g1
  induction g1 with
  | nil => intro g2 pos; rfl
  | cons a tl ih => intro g2 pos; simp [uniformZip, ih]

/-- A valid pointer dereferences to an array of the invariant length. -/
theorem storeOK_deref {B : Nat} {s : St} {p : Nat} (hs : StoreOK B s)
    (hp : p < s.store.length) : (deref s p).length = B := by
  unfold deref
  rw [List.getD_eq_getElem _ _ hp]
  exact hs _ (List.getElem_mem hp)

/-- Pointer validity survives store growth. -/
theorem popOK_mono {s s2 : St} {pop : List Individual} (h : PopOK s pop)
    (hm : s.store.length ≤ s2.store.length) : PopOK s2 pop :=
  fun i hi => lt_of_lt_of_le (h i hi) hm

/-- In-place mutation does not change the number of allocated arrays. -/
theorem mutate_store_length (cfg : Config) (r : Rng) (ind : Individual) (s : St) :
    (mutate cfg r ind s).store.length = s.store.length := by
  simp [mutate, List.length_set]

/-- In-place mutation of a validly-pointed genotype preserves the length
invariant of the store. -/
theorem mutate_storeOK {B : Nat} (cfg : Config) (r : Rng) (ind : Individual) (s : St)
    (hs : StoreOK B s) (hp : ind.genes < s.store.length) : StoreOK B (mutate cfg r ind s) := by
  intro g hg
  rcases List.mem_or_eq_of_mem_set hg with h | h
  · exact hs g h
  · subst h
    rw [mutateGenes_length]
    exact storeOK_deref hs hp

/-- Appending a length-`B` array preserves the store invariant. -/
theorem storeOK_append {B : Nat} {s : St} (hs : StoreOK B s) {g : List Nat} (hg : g.length = B)
    {q : Nat} : StoreOK B ⟨s.store ++ [g], q⟩ := by
  intro x hx
  rcases List.mem_append.mp hx with h | h
  · exact hs x h
  · rw [List.mem_singleton.mp h]; exact hg

/-- Appending two length-`B` arrays preserves the store invariant. -/
theorem storeOK_append2 {B : Nat} {s : St} (hs : StoreOK B s) {g1 g2 : List Nat}
    (h1 : g1.length = B) (h2 : g2.length = B) {q : Nat} :
    StoreOK B ⟨s.store ++ [g1] ++ [g2], q⟩ := by
  intro x hx
  rcases List.mem_append.mp hx with h | h
  · rcases List.mem_append.mp h with h' | h'
    · exact hs x h'
    · rw [List.mem_singleton.mp h']; exact h1
  · rw [List.mem_singleton.mp h]; exact h2

/-- Drawing one individual from a nonempty population: succeeds, consumes one
draw, touches no arrays, returns a member. -/
theorem pick_spec {pop : List Individual} (hne : pop ≠ []) (r : Rng) (s : St) :
    ∃ ind, pick pop r s = some (ind, ⟨s.store, s.pos + 1⟩) ∧ ind ∈ pop := by
  have hl : pop.length ≠ 0 := by simpa using hne
  have hlt : r.intnAt s.pos pop.length % pop.length < pop.length :=
    Nat.mod_lt _ (Nat.pos_of_ne_zero hl)
  refine ⟨pop.getD (r.intnAt s.pos pop.length % pop.length) ⟨0, 0⟩, ?_, ?_⟩
  · simp only [pick, if_neg hl]
  · rw [List.getD_eq_getElem _ _ hlt]
    exact List.getElem_mem hlt

/-- Tournament selection over a nonempty population: succeeds, consumes three
draws, touches no arrays, returns a member. -/
theorem tournamentSelection_spec {pop : List Individual} (hne : pop ≠ []) (r : Rng) (s : St) :
    ∃ ind s1, tournamentSelection pop r s = some (ind, s1) ∧ s1.store = s.store ∧ ind ∈ pop := by
  obtain ⟨i0, h0, m0⟩ := pick_spec hne r s
  obtain ⟨i1, h1, m1⟩ := pick_spec hne r ⟨s.store, s.pos + 1⟩
  obtain ⟨i2, h2, m2⟩ := pick_spec hne r ⟨s.store, s.pos + 1 + 1⟩
  refine ⟨if i2.fitness > (if i1.fitness > i0.fitness then i1 else i0).fitness then i2
    else (if i1.fitness > i0.fitness then i1 else i0),
    ⟨s.store, s.pos + 1 + 1 + 1⟩, ?_, rfl, ?_⟩
  · simp only [tournamentSelection, h0, h1, h2]
  · split_ifs <;> assumption

/-- The store invariant only depends on the store component. -/
theorem storeOK_of_store_eq {B : Nat} {s s2 : St} (h : s2.store = s.store) (hs : StoreOK B s) :
    StoreOK B s2 := fun g hg => hs g (h ▸ hg)

/-- The explicit result of a one-point crossover on a nonempty parent1. -/
theorem onepointCrossover_eq (p1 p2 : Individual) (r : Rng) (s : St)
    (hne : (deref s p1.genes).length ≠ 0) :
    onepointCrossover p1 p2 r s = some (⟨s.store.length, 0⟩, ⟨s.store.length + 1, 0⟩,
      ⟨s.store ++ [(deref s p1.genes).take (r.intnAt s.pos (deref s p1.genes).length % (deref s p1.genes).length) ++
          (deref s p2.genes).drop (r.intnAt s.pos (deref s p1.genes).length % (deref s p1.genes).length)] ++
        [(deref s p2.genes).take (r.intnAt s.pos (deref s p1.genes).length % (deref s p1.genes).length) ++
          (deref s p1.genes).drop (r.intnAt s.pos (deref s p1.genes).length % (deref s p1.genes).length)],
        s.pos + 1⟩) := by
  simp only [onepointCrossover, alloc, if_neg hne]
  simp

/-- The explicit result of a uniform crossover. -/
theorem uniformCrossover_eq (p1 p2 : Individual) (r : Rng) (s : St) :
    uniformCrossover p1 p2 r s = some (⟨s.store.length, 0⟩, ⟨s.store.length + 1, 0⟩,
      ⟨s.store ++ [(uniformZip r (deref s p1.genes) (deref s p2.genes) s.pos).1] ++
        [(uniformZip r (deref s p1.genes) (deref s p2.genes) s.pos).2.1],
        (uniformZip r (deref s p1.genes) (deref s p2.genes) s.pos).2.2⟩) := by
  simp only [uniformCrossover, alloc]
  simp

/-- One-point crossover under the store invariant: succeeds (the parents'
arrays are nonempty), allocates two fresh length-`B` children on top of the
old store. -/
theorem onepointCrossover_spec {B : Nat} (hB : 1 ≤ B) (p1 p2 : Individual) (r : Rng)
    (s : St) (hs : StoreOK B s) (hp1 : p1.genes < s.store.length)
    (hp2 : p2.genes < s.store.length) :
    ∃ c1 c2 s2, onepointCrossover p1 p2 r s = some (c1, c2, s2) ∧
      StoreOK B s2 ∧ s.store.length ≤ s2.store.length ∧
      c1.genes < s2.store.length ∧ c2.genes < s2.store.length := by
  have h1 : (deref s p1.genes).length = B := storeOK_deref hs hp1
  have h2 : (deref s p2.genes).length = B := storeOK_deref hs hp2
  have hne : (deref s p1.genes).length ≠ 0 := by omega
  have hcut : r.intnAt s.pos (deref s p1.genes).length % (deref s p1.genes).length < B := by
    rw [← h1]; exact Nat.mod_lt _ (Nat.pos_of_ne_zero hne)
  refine ⟨_, _, _, onepointCrossover_eq p1 p2 r s hne, ?_, ?_, ?_, ?_⟩
  · refine storeOK_append2 hs ?_ ?_
    · simp only [List.length_append, List.length_take, List.length_drop, h1, h2]
      omega
    · simp only [List.length_append, List.length_take, List.length_drop, h1, h2]
      omega
  · simp
  · simp
  · simp

/-- Uniform crossover under the store invariant: succeeds, allocates two fresh
length-`B` children on top of the old store. -/
theorem uniformCrossover_spec {B : Nat} (p1 p2 : Individual) (r : Rng)
    (s : St) (hs : StoreOK B s) (hp1 : p1.genes < s.store.length)
    (hp2 : p2.genes < s.store.length) :
    ∃ c1 c2 s2, uniformCrossover p1 p2 r s = some (c1, c2, s2) ∧
      StoreOK B s2 ∧ s.store.length ≤ s2.store.length ∧
      c1.genes < s2.store.length ∧ c2.genes < s2.store.length := by
  have h1 : (deref s p1.genes).length = B := storeOK_deref hs hp1
  refine ⟨_, _, _, uniformCrossover_eq p1 p2 r s, ?_, ?_, ?_, ?_⟩
  · refine storeOK_append2 hs ?_ ?_
    · rw [uniformZip_length1, h1]
    · rw [uniformZip_length2, h1]
  · simp
  · simp
  · simp

/-- The crossover dispatcher under the store invariant. -/
theorem crossover_spec (cfg : Config) {B : Nat} (hB : 1 ≤ B) (p1 p2 : Individual) (r : Rng)
    (s : St) (hs : StoreOK B s) (hp1 : p1.genes < s.store.length)
    (hp2 : p2.genes < s.store.length) :
    ∃ c1 c2 s2, crossover cfg p1 p2 r s = some (c1, c2, s2) ∧
      StoreOK B s2 ∧ s.store.length ≤ s2.store.length ∧
      c1.genes < s2.store.length ∧ c2.genes < s2.store.length := by
  unfold crossover
  split
  · exact onepointCrossover_spec hB p1 p2 r s hs hp1 hp2
  · exact uniformCrossover_spec p1 p2 r s hs hp1 hp2

/-- C4 (code behavior at the failing inputs): with `PopulationSize = 0` the
run panics (index out of range at `population[0]`) instead of failing fast
with a configuration error, and with `MaxGenerations = -1`, both probabilities
2, an unrecognized `CrossoverType` and `BitsPerGene = 0` the run silently
completes and returns a result — no validation happens at all. -/
theorem c4_no_validation :
    Run cfgZeroPop constRng = none ∧ (Run cfgNoCheck constRng).isSome = true :=
  ⟨rfl, rfl⟩

/-- The reproduction loop under the run invariants: it succeeds, only appends
to the seeded prefix, fills the population to exactly `PopulationSize`, and
preserves the store invariants. -/
theorem reproduce_spec (cfg : Config) (r : Rng) {B : Nat} (hB : 1 ≤ B)
    (pop : List Individual) (hne : pop ≠ []) :
    ∀ (fuel : Nat) (newPop : List Individual) (s : St),
    StoreOK B s → PopOK s pop → PopOK s newPop →
    cfg.populationSize.toNat ≤ newPop.length + fuel →
    ∃ out s2, reproduce cfg r pop fuel newPop s = some (out, s2) ∧
      (∃ t, out = newPop ++ t) ∧
      out.length = max newPop.length cfg.populationSize.toNat ∧
      StoreOK B s2 ∧ s.store.length ≤ s2.store.length ∧ PopOK s2 out := by
  intro fuel
  induction fuel with
  | zero =>
      intro newPop s hs hpop hnp hfuel
      have hge : ¬ newPop.length < cfg.populationSize.toNat := by omega
      refine ⟨newPop, s, ?_, ⟨[], by simp⟩, by omega, hs, le_refl _, hnp⟩
      simp only [reproduce, if_neg hge]
  | succ fuel ih =>
      intro newPop s hs hpop hnp hfuel
      by_cases hlt : newPop.length < cfg.populationSize.toNat
      · obtain ⟨parent1, s1, htour1, hst1, hmem1⟩ := tournamentSelection_spec hne r s
        obtain ⟨parent2, s2', htour2, hst2, hmem2⟩ := tournamentSelection_spec hne r s1
        have hstore2 : s2'.store = s.store := hst2.trans hst1
        have hchild : ∃ c1 c2 s4, (if r.floatAt s2'.pos < cfg.crossoverProb
              then crossover cfg parent1 parent2 r ⟨s2'.store, s2'.pos + 1⟩
              else some (parent1, parent2, ⟨s2'.store, s2'.pos + 1⟩)) = some (c1, c2, s4) ∧
            StoreOK B s4 ∧ s.store.length ≤ s4.store.length ∧
            c1.genes < s4.store.length ∧ c2.genes < s4.store.length := by
          have hsOK3 : StoreOK B (⟨s2'.store, s2'.pos + 1⟩ : St) :=
            storeOK_of_store_eq (by simp [hstore2]) hs
          have hq1 : parent1.genes < s2'.store.length := by rw [hstore2]; exact hpop _ hmem1
          have hq2 : parent2.genes < s2'.store.length := by rw [hstore2]; exact hpop _ hmem2
          split
          · obtain ⟨c1, c2, s4, heq, h4, hm4, hg1, hg2⟩ :=
              crossover_spec cfg hB parent1 parent2 r ⟨s2'.store, s2'.pos + 1⟩ hsOK3 hq1 hq2
            refine ⟨c1, c2, s4, heq, h4, ?_, hg1, hg2⟩
            calc s.store.length = s2'.store.length := by rw [hstore2]
              _ ≤ s4.store.length := hm4
          · exact ⟨parent1, parent2, ⟨s2'.store, s2'.pos + 1⟩, rfl, hsOK3,
              le_of_eq (by rw [hstore2]), hq1, hq2⟩
        obtain ⟨c1, c2, s4, hcoin, hsOK4, hmono4, hc1, hc2⟩ := hchild
        have hlen5 : (mutate cfg r c1 s4).store.length = s4.store.length :=
          mutate_store_length cfg r c1 s4
        have hlen6 : (mutate cfg r c2 (mutate cfg r c1 s4)).store.length = s4.store.length := by
          rw [mutate_store_length]; exact hlen5
        have hsOK6 : StoreOK B (mutate cfg r c2 (mutate cfg r c1 s4)) := by
          refine mutate_storeOK cfg r c2 _ (mutate_storeOK cfg r c1 s4 hsOK4 hc1) ?_
          rw [hlen5]; exact hc2
        have hmono6 : s.store.length ≤ (mutate cfg r c2 (mutate cfg r c1 s4)).store.length := by
          rw [hlen6]; exact hmono4
        simp only [reproduce, if_pos hlt, htour1, htour2, hcoin]
        set S6 : St := mutate cfg r c2 (mutate cfg r c1 s4) with hS6
        set D1 : Individual := ⟨c1.genes, cfg.fitnessFunc (deref S6 c1.genes)⟩ with hD1
        set D2 : Individual := ⟨c2.genes, cfg.fitnessFunc (deref S6 c2.genes)⟩ with hD2
        set NP : List Individual := if (newPop ++ [D1]).length < cfg.populationSize.toNat
            then (newPop ++ [D1]) ++ [D2] else newPop ++ [D1] with hNP
        have hNPlen : newPop.length + 1 ≤ NP.length ∧ NP.length ≤ cfg.populationSize.toNat := by
          rw [hNP]
          split
          · rename_i h
            simp only [List.length_append, List.length_singleton] at h ⊢
            omega
          · rename_i h
            simp only [List.length_append, List.length_singleton] at h ⊢
            omega
        have hpopOK6 : PopOK S6 pop := popOK_mono hpop hmono6
        have hnpOK6 : PopOK S6 NP := by
          have hbase : ∀ i ∈ newPop ++ [D1], i.genes < S6.store.length := by
            intro i hi
            rcases List.mem_append.mp hi with h | h
            · exact lt_of_lt_of_le (hnp i h) hmono6
            · rw [List.mem_singleton.mp h]
              show c1.genes < S6.store.length
              rw [hS6, hlen6]; exact hc1
          intro i hi
          rw [hNP] at hi
          revert hi
          split
          · intro hi
            rcases List.mem_append.mp hi with h | h
            · exact hbase i h
            · rw [List.mem_singleton.mp h]
              show c2.genes < S6.store.length
              rw [hS6, hlen6]; exact hc2
          · intro hi; exact hbase i hi
        have hfuel6 : cfg.populationSize.toNat ≤ NP.length + fuel := by omega
        obtain ⟨out, s7, hreq, ⟨t, hext⟩, hlen7, hOK7, hmono7, hpop7⟩ :=
          ih NP S6 hsOK6 hpopOK6 hnpOK6 hfuel6
        refine ⟨out, s7, hreq, ?_, ?_, hOK7, le_trans hmono6 hmono7, hpop7⟩
        · rw [hext, hNP]
          split
          · exact ⟨[D1] ++ ([D2] ++ t), by simp⟩
          · exact ⟨[D1] ++ t, by simp⟩
        · rw [hlen7]
          omega
      · have hout : reproduce cfg r pop (fuel + 1) newPop s = some (newPop, s) := by
          simp only [reproduce, if_neg hlt]
        exact ⟨newPop, s, hout, ⟨[], by simp⟩, by omega, hs, le_refl _, hnp⟩

/-- The optional head of a nonempty list is its default-head. -/
theorem head?_eq_headD_of_ne_nil {l : List Individual} (h : l ≠ []) :
    l.head? = some (l.headD ⟨0, 0⟩) := by
  cases l with
  | nil => exact absurd rfl h
  | cons a t => rfl

/-- The default-head of a nonempty list is a member. -/
theorem headD_mem_of_ne_nil {l : List Individual} (h : l ≠ []) : l.headD ⟨0, 0⟩ ∈ l := by
  cases l with
  | nil => exact absurd rfl h
  | cons a t => exact List.mem_cons_self a t

/-- One generation under the run invariants: it succeeds, records exactly the
current top fitness, produces a population of exactly `PopulationSize`,
preserves the store invariants and — when at least one elite is kept — carries
an individual whose recorded fitness equals the recorded top fitness. -/
theorem generationStep_spec (cfg : Config) (r : Rng) {B : Nat} (hB : 1 ≤ B)
    (pop : List Individual) (hist : List ℚ) (s : St)
    (hP : 1 ≤ cfg.populationSize.toNat)
    (hlen : pop.length = cfg.populationSize.toNat)
    (hs : StoreOK B s) (hpop : PopOK s pop) :
    ∃ newPop s2, generationStep cfg r pop hist s = some (newPop, hist ++ [topFitness pop], s2) ∧
      newPop.length = cfg.populationSize.toNat ∧
      StoreOK B s2 ∧ s.store.length ≤ s2.store.length ∧ PopOK s2 newPop ∧
      (1 ≤ cfg.elitismCount.toNat → ∃ e ∈ newPop, e.fitness = topFitness pop) := by
  have hne : pop ≠ [] := by
    intro h; rw [h] at hlen; simp at hlen; omega
  have hsne : sortPop pop ≠ [] := by
    intro h
    exact hne (List.length_eq_zero.mp (by rw [← length_sortPop pop, h]; rfl))
  have hsortlen : (sortPop pop).length = cfg.populationSize.toNat := by
    rw [length_sortPop]; exact hlen
  have hpops : PopOK s (sortPop pop) := fun i hi => hpop i (mem_sortPop.mp hi)
  have hpope : PopOK s ((sortPop pop).take cfg.elitismCount.toNat) :=
    fun i hi => hpops i (List.mem_of_mem_take hi)
  have helen : ((sortPop pop).take cfg.elitismCount.toNat).length ≤ cfg.populationSize.toNat := by
    rw [List.length_take, hsortlen]; omega
  obtain ⟨out, s2, hreq, ⟨t, hext⟩, houtlen, hOK2, hmono2, hpop2⟩ :=
    reproduce_spec cfg r hB (sortPop pop) hsne cfg.populationSize.toNat
      ((sortPop pop).take cfg.elitismCount.toNat) s hs hpops hpope (Nat.le_add_left _ _)
  refine ⟨out, s2, ?_, by omega, hOK2, hmono2, hpop2, ?_⟩
  · simp only [generationStep, head?_eq_headD_of_ne_nil hsne, hreq]
    rfl
  · intro hE
    refine ⟨(sortPop pop).headD ⟨0, 0⟩, ?_, rfl⟩
    rw [hext]
    refine List.mem_append_left _ ?_
    obtain ⟨a, l, hsp⟩ := List.exists_cons_of_ne_nil hsne
    rw [hsp]
    obtain ⟨E, hEe⟩ : ∃ E, cfg.elitismCount.toNat = E + 1 :=
      ⟨cfg.elitismCount.toNat - 1, by omega⟩
    rw [hEe]
    simp [List.take_succ_cons]

/-- The generation loop under the run invariants: it succeeds, appends exactly
one history entry per generation, and preserves population size and store
invariants. -/
theorem genLoop_spec (cfg : Config) (r : Rng) {B : Nat} (hB : 1 ≤ B)
    (hP : 1 ≤ cfg.populationSize.toNat) :
    ∀ (n : Nat) (pop : List Individual) (hist : List ℚ) (s : St),
    pop.length = cfg.populationSize.toNat → StoreOK B s → PopOK s pop →
    ∃ popF histF sF, genLoop cfg r n pop hist s = some (popF, histF, sF) ∧
      popF.length = cfg.populationSize.toNat ∧ histF.length = hist.length + n ∧
      StoreOK B sF ∧ PopOK sF popF := by
  intro n
  induction n with
  | zero =>
      intro pop hist s hlen hs hpop
      exact ⟨pop, hist, s, rfl, hlen, by simp, hs, hpop⟩
  | succ n ih =>
      intro pop hist s hlen hs hpop
      obtain ⟨newPop, s2, hstep, hlen2, hOK2, hmono2, hpop2, _⟩ :=
        generationStep_spec cfg r hB pop hist s hP hlen hs hpop
      obtain ⟨popF, histF, sF, hloop, hlenF, hhist, hOKF, hpopF⟩ :=
        ih newPop (hist ++ [topFitness pop]) s2 hlen2 hOK2 hpop2
      refine ⟨popF, histF, sF, ?_, hlenF, ?_, hOKF, hpopF⟩
      · simp only [genLoop, hstep, hloop]
      · rw [hhist]
        simp only [List.length_append, List.length_singleton]
        omega

/-- With at least one elite kept, the generation loop extends a non-decreasing
history whose last entry bounds the current top fitness into a non-decreasing
history. -/
theorem genLoop_chain (cfg : Config) (r : Rng) {B : Nat} (hB : 1 ≤ B)
    (hP : 1 ≤ cfg.populationSize.toNat) (hE : 1 ≤ cfg.elitismCount.toNat) :
    ∀ (n : Nat) (pop : List Individual) (hist : List ℚ) (s : St),
    pop.length = cfg.populationSize.toNat → StoreOK B s → PopOK s pop →
    List.Chain' (· ≤ ·) hist → (∀ a ∈ hist.getLast?, a ≤ topFitness pop) →
    ∃ popF histF sF, genLoop cfg r n pop hist s = some (popF, histF, sF) ∧
      List.Chain' (· ≤ ·) histF := by
  intro n
  induction n with
  | zero =>
      intro pop hist s _ _ _ hch _
      exact ⟨pop, hist, s, rfl, hch⟩
  | succ n ih =>
      intro pop hist s hlen hs hpop hch hlast
      obtain ⟨newPop, s2, hstep, hlen2, hOK2, hmono2, hpop2, helite⟩ :=
        generationStep_spec cfg r hB pop hist s hP hlen hs hpop
      obtain ⟨e, hemem, hefit⟩ := helite hE
      have hch2 : List.Chain' (· ≤ ·) (hist ++ [topFitness pop]) := by
        rw [List.chain'_append]
        refine ⟨hch, List.chain'_singleton _, ?_⟩
        intro x hx y hy
        have hy2 : y = topFitness pop := by simpa using hy.symm
        rw [hy2]
        exact hlast x hx
      have hlast2 : ∀ a ∈ (hist ++ [topFitness pop]).getLast?, a ≤ topFitness newPop := by
        intro a ha
        rw [List.getLast?_concat] at ha
        have ha2 : a = topFitness pop := by simpa using ha.symm
        rw [ha2, ← hefit]
        exact topFitness_max hemem
      obtain ⟨popF, histF, sF, hloop, hchF⟩ :=
        ih newPop (hist ++ [topFitness pop]) s2 hlen2 hOK2 hpop2 hch2 hlast2
      refine ⟨popF, histF, sF, ?_, hchF⟩
      simp only [genLoop, hstep, hloop]

/-- Initialization builds `n` individuals with fresh length-`BitsPerGene`
arrays and valid pointers, only growing the store. -/
theorem initPop_spec (cfg : Config) (r : Rng) :
    ∀ (n : Nat) (s : St), StoreOK cfg.bitsPerGene.toNat s →
    (initPop cfg r n s).1.length = n ∧
    StoreOK cfg.bitsPerGene.toNat (initPop cfg r n s).2 ∧
    s.store.length ≤ (initPop cfg r n s).2.store.length ∧
    PopOK (initPop cfg r n s).2 (initPop cfg r n s).1 := by
  intro n
  induction n with
  | zero =>
      intro s hs
      exact ⟨rfl, hs, le_refl _, fun i hi => absurd hi (List.not_mem_nil i)⟩
  | succ n ih =>
      intro s hs
      have hsOK : StoreOK cfg.bitsPerGene.toNat
          (⟨s.store ++ [(randBits r cfg.bitsPerGene.toNat s.pos).1],
            (randBits r cfg.bitsPerGene.toNat s.pos).2⟩ : St) :=
        storeOK_append hs (randBits_length r _ _)
      obtain ⟨ih1, ih2, ih3, ih4⟩ := ih
        ⟨s.store ++ [(randBits r cfg.bitsPerGene.toNat s.pos).1],
          (randBits r cfg.bitsPerGene.toNat s.pos).2⟩ hsOK
      simp only [initPop, alloc]
      refine ⟨by simp [ih1], ih2, ?_, ?_⟩
      · refine le_trans ?_ ih3
        simp
      · intro i hi
        rcases List.mem_cons.mp hi with h | h
        · rw [h]
          show s.store.length < _
          refine lt_of_lt_of_le ?_ ih3
          simp
        · exact ih4 i h

/-- The full run on a config with a positive population and genotype length:
it completes, its history has exactly `MaxGenerations` entries, the returned
individual is a maximal-fitness member of the returned (sorted) final
population; with `MaxGenerations = 0` the history is empty and the final
population is (a permutation of) the initial one; with at least one elite the
history is non-decreasing. -/
theorem runFull_spec (cfg : Config) (r : Rng) (hP : 1 ≤ cfg.populationSize)
    (hB : 1 ≤ cfg.bitsPerGene) :
    ∃ best hist popF sF,
      runFull cfg r = some (best, hist, popF, sF) ∧
      hist.length = cfg.maxGenerations.toNat ∧
      best ∈ popF ∧ (∀ x ∈ popF, x.fitness ≤ best.fitness) ∧
      (cfg.maxGenerations = 0 →
        hist = [] ∧ ∃ pop0 s0, initPopulation cfg r initSt = some (pop0, s0) ∧ popF.Perm pop0) ∧
      (1 ≤ cfg.elitismCount → List.Chain' (· ≤ ·) hist) := by
  have hPn : 1 ≤ cfg.populationSize.toNat := by omega
  have hBn : 1 ≤ cfg.bitsPerGene.toNat := by omega
  have hinit : initPopulation cfg r initSt =
      some ((initPop cfg r cfg.populationSize.toNat initSt).1,
        (initPop cfg r cfg.populationSize.toNat initSt).2) := by
    simp only [initPopulation, if_neg (by omega : ¬ cfg.populationSize < 0),
      if_neg (by omega : ¬ (0 < cfg.populationSize ∧ cfg.bitsPerGene < 0))]
  have hsOK0 : StoreOK cfg.bitsPerGene.toNat initSt := fun g hg => absurd hg (List.not_mem_nil g)
  obtain ⟨hlen0, hOK0, _, hpop0⟩ := initPop_spec cfg r cfg.populationSize.toNat initSt hsOK0
  obtain ⟨popF, histF, sF, hloop, hlenF, hhist, hOKF, hpopF⟩ :=
    genLoop_spec cfg r hBn hPn cfg.maxGenerations.toNat
      (initPop cfg r cfg.populationSize.toNat initSt).1 []
      (initPop cfg r cfg.populationSize.toNat initSt).2 hlen0 hOK0 hpop0
  have hFne : popF ≠ [] := by
    intro h; rw [h] at hlenF; simp at hlenF; omega
  have hsne : sortPop popF ≠ [] := by
    intro h
    exact hFne (List.length_eq_zero.mp (by rw [← length_sortPop popF, h]; rfl))
  refine ⟨(sortPop popF).headD ⟨0, 0⟩, histF, sortPop popF, sF, ?_, ?_, ?_, ?_, ?_, ?_⟩
  · simp only [runFull, hinit, hloop, head?_eq_headD_of_ne_nil hsne]
  · rw [hhist]; simp
  · exact headD_mem_of_ne_nil hsne
  · intro x hx
    exact topFitness_max (mem_sortPop.mp hx)
  · intro hM0
    have hl0 := hloop
    rw [hM0] at hl0
    simp only [Int.toNat_zero, genLoop] at hl0
    have hpopF0 : (initPop cfg r cfg.populationSize.toNat initSt).1 = popF ∧ histF = [] ∧
        (initPop cfg r cfg.populationSize.toNat initSt).2 = sF := by
      simpa [Prod.mk.injEq] using hl0
    refine ⟨hpopF0.2.1, (initPop cfg r cfg.populationSize.toNat initSt).1,
      (initPop cfg r cfg.populationSize.toNat initSt).2, hinit, ?_⟩
    rw [← hpopF0.1]
    exact sortPop_perm _
  · intro hEi
    have hEn : 1 ≤ cfg.elitismCount.toNat := by omega
    obtain ⟨popF', histF', sF', hloop', hch⟩ :=
      genLoop_chain cfg r hBn hPn hEn cfg.maxGenerations.toNat
        (initPop cfg r cfg.populationSize.toNat initSt).1 []
        (initPop cfg r cfg.populationSize.toNat initSt).2 hlen0 hOK0 hpop0
        List.chain'_nil (by intro a ha; simp at ha)
    rw [hloop] at hloop'
    have : histF = histF' := by
      simpa [Prod.mk.injEq] using congrArg (fun x => x.map (fun y => y.2.1)) hloop'
    rw [this]
    exact hch

/-- C2: for every valid config (`PopulationSize ≥ 1`, `MaxGenerations ≥ 0`,
`BitsPerGene ≥ 1`, probabilities in [0,1]) the run completes and the returned
convergence history has length exactly `MaxGenerations` (one entry appended
per completed generation). -/
theorem c2_history_length (cfg : Config) (r : Rng)
    (hP : 1 ≤ cfg.populationSize) (hM : 0 ≤ cfg.maxGenerations) (hB : 1 ≤ cfg.bitsPerGene)
    (hc0 : 0 ≤ cfg.crossoverProb) (hc1 : cfg.crossoverProb ≤ 1)
    (hm0 : 0 ≤ cfg.mutationProb) (hm1 : cfg.mutationProb ≤ 1) :
    ∃ best hist popF sF, runFull cfg r = some (best, hist, popF, sF) ∧
      (hist.length : Int) = cfg.maxGenerations := by
  obtain ⟨best, hist, popF, sF, heq, hlen, _⟩ := runFull_spec cfg r hP hB
  exact ⟨best, hist, popF, sF, heq, by rw [hlen]; exact Int.toNat_of_nonneg hM⟩

/-- C2 witness at `cfgW` and the constant oracle. -/
theorem c2_history_witness :
    ((1 : Int) ≤ cfgW.populationSize ∧ (0 : Int) ≤ cfgW.maxGenerations ∧
      (1 : Int) ≤ cfgW.bitsPerGene ∧ (0 : ℚ) ≤ cfgW.crossoverProb ∧ cfgW.crossoverProb ≤ 1 ∧
      (0 : ℚ) ≤ cfgW.mutationProb ∧ cfgW.mutationProb ≤ 1) ∧
    (∃ best hist popF sF, runFull cfgW constRng = some (best, hist, popF, sF) ∧
      (hist.length : Int) = cfgW.maxGenerations) :=
  ⟨⟨by decide, by decide, by decide, by decide, by decide, by decide, by decide⟩,
    c2_history_length cfgW constRng (by decide) (by decide) (by decide) (by decide)
      (by decide) (by decide) (by decide)⟩

/-- C1: for every valid config with `ElitismCount ≥ 1`, the recorded
best-fitness history is non-decreasing: consecutive entries satisfy
`history[i] ≤ history[i+1]`.  This holds despite the gene aliasing of elites
(pass-through children share the parent's backing array and in-place mutation
can rewrite an elite's genes), because the elite's recorded `Fitness` field is
itself never rewritten, and each recorded entry is the maximum fitness field
of its generation. -/
theorem c1_history_nondecreasing (cfg : Config) (r : Rng)
    (hP : 1 ≤ cfg.populationSize) (hM : 0 ≤ cfg.maxGenerations) (hB : 1 ≤ cfg.bitsPerGene)
    (hE : 1 ≤ cfg.elitismCount)
    (hc0 : 0 ≤ cfg.crossoverProb) (hc1 : cfg.crossoverProb ≤ 1)
    (hm0 : 0 ≤ cfg.mutationProb) (hm1 : cfg.mutationProb ≤ 1) :
    ∃ best hist popF sF, runFull cfg r = some (best, hist, popF, sF) ∧
      List.Chain' (· ≤ ·) hist := by
  obtain ⟨best, hist, popF, sF, heq, _, _, _, _, hchain⟩ := runFull_spec cfg r hP hB
  exact ⟨best, hist, popF, sF, heq, hchain hE⟩

/-- C1 witness at `cfgW` and the constant oracle. -/
theorem c1_history_witness :
    ((1 : Int) ≤ cfgW.populationSize ∧ (0 : Int) ≤ cfgW.maxGenerations ∧
      (1 : Int) ≤ cfgW.bitsPerGene ∧ (1 : Int) ≤ cfgW.elitismCount ∧
      (0 : ℚ) ≤ cfgW.crossoverProb ∧ cfgW.crossoverProb ≤ 1 ∧
      (0 : ℚ) ≤ cfgW.mutationProb ∧ cfgW.mutationProb ≤ 1) ∧
    (∃ best hist popF sF, runFull cfgW constRng = some (best, hist, popF, sF) ∧
      List.Chain' (· ≤ ·) hist) :=
  ⟨⟨by decide, by decide, by decide, by decide, by decide, by decide, by decide, by decide⟩,
    c1_history_nondecreasing cfgW constRng (by decide) (by decide) (by decide) (by decide)
      (by decide) (by decide) (by decide) (by decide)⟩

/-- C5: for every valid config the run returns an individual that is a member
of the final (sorted) population and has maximal fitness over it; when
`MaxGenerations = 0` the engine still initializes the population and the final
population is (a permutation of) that initial population, with an empty
history. -/
theorem c5_returns_best (cfg : Config) (r : Rng)
    (hP : 1 ≤ cfg.populationSize) (hM : 0 ≤ cfg.maxGenerations) (hB : 1 ≤ cfg.bitsPerGene)
    (hc0 : 0 ≤ cfg.crossoverProb) (hc1 : cfg.crossoverProb ≤ 1)
    (hm0 : 0 ≤ cfg.mutationProb) (hm1 : cfg.mutationProb ≤ 1) :
    ∃ best hist popF sF, runFull cfg r = some (best, hist, popF, sF) ∧
      best ∈ popF ∧ (∀ x ∈ popF, x.fitness ≤ best.fitness) ∧
      (cfg.maxGenerations = 0 →
        hist = [] ∧ ∃ pop0 s0, initPopulation cfg r initSt = some (pop0, s0) ∧
          popF.Perm pop0) := by
  obtain ⟨best, hist, popF, sF, heq, _, hmem, hmax, hzero, _⟩ := runFull_spec cfg r hP hB
  exact ⟨best, hist, popF, sF, heq, hmem, hmax, hzero⟩

/-- C5 witness at `cfgW` and the constant oracle. -/
theorem c5_returns_witness :
    ((1 : Int) ≤ cfgW.populationSize ∧ (0 : Int) ≤ cfgW.maxGenerations ∧
      (1 : Int) ≤ cfgW.bitsPerGene ∧ (0 : ℚ) ≤ cfgW.crossoverProb ∧ cfgW.crossoverProb ≤ 1 ∧
      (0 : ℚ) ≤ cfgW.mutationProb ∧ cfgW.mutationProb ≤ 1) ∧
    (∃ best hist popF sF, runFull cfgW constRng = some (best, hist, popF, sF) ∧
      best ∈ popF ∧ (∀ x ∈ popF, x.fitness ≤ best.fitness) ∧
      (cfgW.maxGenerations = 0 →
        hist = [] ∧ ∃ pop0 s0, initPopulation cfgW constRng initSt = some (pop0, s0) ∧
          popF.Perm pop0)) :=
  ⟨⟨by decide, by decide, by decide, by decide, by decide, by decide, by decide⟩,
    c5_returns_best cfgW constRng (by decide) (by decide) (by decide) (by decide)
      (by decide) (by decide) (by decide)⟩

/-- Mutation ignores the crossover-type field. -/
theorem mutateGenes_congr (cfg : Config) (t : String) (r : Rng) :
    ∀ (g : List Nat) (pos : Nat),
    mutateGenes {cfg with crossoverType := t} r g pos = mutateGenes cfg r g pos := by
  intro g
  induction g with
  | nil => intro pos; rfl
  | cons b tl ih => intro pos; simp only [mutateGenes, ih]

/-- In-place mutation ignores the crossover-type field. -/
theorem mutate_congr (cfg : Config) (t : String) (r : Rng) (ind : Individual) (s : St) :
    mutate {cfg with crossoverType := t} r ind s = mutate cfg r ind s := by
  simp only [mutate, mutateGenes_congr]

/-- On a config whose crossover type is not `"onepoint"`, replacing the type
by `"uniform"` yields the same crossover. -/
theorem crossover_congr (cfg : Config) (h : ¬ cfg.crossoverType = "onepoint")
    (p1 p2 : Individual) (r : Rng) (s : St) :
    crossover {cfg with crossoverType := "uniform"} p1 p2 r s = crossover cfg p1 p2 r s := by
  have hu : ({cfg with crossoverType := "uniform"} : Config).crossoverType ≠ "onepoint" := by
    show ¬ ("uniform" = "onepoint")
    decide
  simp only [crossover, if_neg h, if_neg hu]

/-- The reproduction loop on a non-`"onepoint"` config is unchanged by
replacing the type by `"uniform"`. -/
theorem reproduce_congr (cfg : Config) (h : ¬ cfg.crossoverType = "onepoint") (r : Rng)
    (pop : List Individual) :
    ∀ (fuel : Nat) (newPop : List Individual) (s : St),
    reproduce {cfg with crossoverType := "uniform"} r pop fuel newPop s =
      reproduce cfg r pop fuel newPop s := by
  intro fuel
  induction fuel with
  | zero => intro newPop s; rfl
  | succ fuel ih =>
      intro newPop s
      simp only [reproduce, crossover_congr cfg h, mutate_congr, ih]

/-- One generation on a non-`"onepoint"` config is unchanged by replacing the
type by `"uniform"`. -/
theorem generationStep_congr (cfg : Config) (h : ¬ cfg.crossoverType = "onepoint") (r : Rng)
    (pop : List Individual) (hist : List ℚ) (s : St) :
    generationStep {cfg with crossoverType := "uniform"} r pop hist s =
      generationStep cfg r pop hist s := by
  simp only [generationStep, reproduce_congr cfg h]

/-- The generation loop on a non-`"onepoint"` config is unchanged by replacing
the type by `"uniform"`. -/
theorem genLoop_congr (cfg : Config) (h : ¬ cfg.crossoverType = "onepoint") (r : Rng) :
    ∀ (n : Nat) (pop : List Individual) (hist : List ℚ) (s : St),
    genLoop {cfg with crossoverType := "uniform"} r n pop hist s =
      genLoop cfg r n pop hist s := by
  intro n
  induction n with
  | zero => intro pop hist s; rfl
  | succ n ih =>
      intro pop hist s
      simp only [genLoop, generationStep_congr cfg h, ih]

/-- Initialization ignores the crossover-type field. -/
theorem initPop_congr (cfg : Config) (t : String) (r : Rng) :
    ∀ (n : Nat) (s : St), initPop {cfg with crossoverType := t} r n s = initPop cfg r n s := by
  intro n
  induction n with
  | zero => intro s; rfl
  | succ n ih => intro s; simp only [initPop, ih]

/-- Population setup ignores the crossover-type field. -/
theorem initPopulation_congr (cfg : Config) (t : String) (r : Rng) (s : St) :
    initPopulation {cfg with crossoverType := t} r s = initPopulation cfg r s := by
  simp only [initPopulation, initPop_congr]

/-- C10: for every config whose `CrossoverType` is neither `"onepoint"` nor
`"uniform"` (the hypothesis only needs: not `"onepoint"`), the whole run —
final state and gene store included — is identical to the run of the same
config with `CrossoverType = "uniform"`: the dispatcher silently falls through
to uniform crossover. -/
theorem c10_unknown_type_runs_uniform (cfg : Config) (r : Rng)
    (h : ¬ cfg.crossoverType = "onepoint") :
    runFull {cfg with crossoverType := "uniform"} r = runFull cfg r ∧
    Run {cfg with crossoverType := "uniform"} r = Run cfg r := by
  have hrf : runFull {cfg with crossoverType := "uniform"} r = runFull cfg r := by
    simp only [runFull, initPopulation_congr, genLoop_congr cfg h]
  exact ⟨hrf, by simp only [Run, hrf]⟩

/-- C10 witness: a config with the unrecognized type `"weird"`. -/
theorem c10_unknown_witness :
    (¬ Config.crossoverType ⟨2, 1, 0, 0, "weird", 1, 2, fun g => (BytesToInt g : ℚ), 7⟩ =
      "onepoint") ∧
    (runFull {(⟨2, 1, 0, 0, "weird", 1, 2, fun g => (BytesToInt g : ℚ), 7⟩ : Config) with
        crossoverType := "uniform"} constRng =
      runFull ⟨2, 1, 0, 0, "weird", 1, 2, fun g => (BytesToInt g : ℚ), 7⟩ constRng ∧
    Run {(⟨2, 1, 0, 0, "weird", 1, 2, fun g => (BytesToInt g : ℚ), 7⟩ : Config) with
        crossoverType := "uniform"} constRng =
      Run ⟨2, 1, 0, 0, "weird", 1, 2, fun g => (BytesToInt g : ℚ), 7⟩ constRng) :=
  ⟨by decide,
    c10_unknown_type_runs_uniform ⟨2, 1, 0, 0, "weird", 1, 2, fun g => (BytesToInt g : ℚ), 7⟩
      constRng (by decide)⟩

end GASpec
